import Mathlib

set_option autoImplicit false

namespace LangchainGo

/-! Shallow embedding of the agent orchestration core of `langchain-go`
(packages `agents`, message log, action codec, runner and streaming
controller).  Go strings are modelled as lists of characters; all byte
positions in the modelled code fall on character boundaries because the
markers searched for are ASCII, so `List Char` indices coincide with the
Go byte indices on the inputs the code distinguishes. -/

/-- Go strings, modelled as lists of characters. -/
abbrev Str := List Char

/-- Model of Go `strings.HasPrefix` at the list level:
`listStartsWith pat s` is true when `s` starts with `pat`. -/
def listStartsWith : Str → Str → Bool
  | [], _ => true
  | _ :: _, [] => false
  | p :: ps, c :: cs => p == c && listStartsWith ps cs

/-- Model of Go `strings.Index s pat`: index of the first occurrence of
`pat` in `s` (`none` models Go's `-1`). -/
def strIndex (s pat : Str) : Option Nat :=
  match s with
  | [] => if listStartsWith pat [] then some 0 else none
  | c :: t =>
    if listStartsWith pat (c :: t) then some 0
    else (strIndex t pat).map (· + 1)

/-- Index of the last occurrence of the character `c` in `s`
(`none` models `-1`); model of Go `strings.LastIndex s (string c)`. -/
def lastIndexOf (c : Char) : Str → Option Nat
  | [] => none
  | x :: xs =>
    match lastIndexOf c xs with
    | some i => some (i + 1)
    | none => if x == c then some 0 else none

/-- The last-index as a Go integer (`-1` when absent), mirroring the
`int` returned by `strings.LastIndex`. -/
def lastIndexZ (c : Char) (s : Str) : Int :=
  match lastIndexOf c s with
  | none => -1
  | some i => (i : Int)

/-- Model of Go `unicode.IsSpace`, the character class used by
`strings.TrimSpace`: the Unicode `White_Space` property
(U+0009..U+000D, U+0020, U+0085, U+00A0, U+1680, U+2000..U+200A,
U+2028, U+2029, U+202F, U+205F, U+3000). -/
def isGoSpace (c : Char) : Bool :=
  let n := c.toNat
  (9 <= n && n <= 13) || n == 32 || n == 0x85 || n == 0xa0 ||
  n == 0x1680 || (0x2000 <= n && n <= 0x200a) ||
  n == 0x2028 || n == 0x2029 || n == 0x202f || n == 0x205f || n == 0x3000

/-- Trim white space from the left end of a string. -/
def trimLeftSpace (s : Str) : Str := s.dropWhile isGoSpace

/-- Trim white space from the right end of a string. -/
def trimRightSpace (s : Str) : Str := (s.reverse.dropWhile isGoSpace).reverse

/-- Model of Go `strings.TrimSpace`. -/
def trimSpace (s : Str) : Str := trimRightSpace (trimLeftSpace s)

/-- Model of Go `strings.TrimPrefix(s, "﻿")`: strip one leading
byte-order mark if present. -/
def trimPrefixBOM : Str → Str
  | '﻿' :: rest => rest
  | s => s

/-- Model of `thoroughlyCleanJSON` (agents package): strip a leading BOM,
trim surrounding white space, truncate everything after the last closing
brace or bracket, and trim again. -/
def thoroughlyCleanJSON (jsonStr : Str) : Str :=
  let s1 := trimPrefixBOM jsonStr
  let s2 := trimSpace s1
  let lastBrace := lastIndexZ '\x7d' s2
  let lastBracket := lastIndexZ ']' s2
  let endPos := max lastBrace lastBracket
  let s3 := if endPos != -1 then s2.take (endPos + 1).toNat else s2
  trimSpace s3

/-- JSON values as decoded by Go `encoding/json` into `interface{}`.
Numbers keep their lexeme: the modelled code never inspects numeric
values, only whether decoding succeeds. -/
inductive Json where
  | null
  | jbool (b : Bool)
  | jnum (lexeme : Str)
  | jstr (s : Str)
  | jarr (elems : List Json)
  | jobj (fields : List (Str × Json))
  deriving Repr

/-- JSON structural white space as accepted by the Go decoder: space,
tab, line feed and carriage return, by code point. -/
def isJsonWs (c : Char) : Bool :=
  c.toNat == 32 || c.toNat == 9 || c.toNat == 10 || c.toNat == 13

/-- Skip JSON structural white space. -/
def skipWs (s : Str) : Str := s.dropWhile isJsonWs

/-- ASCII digit test (code points 48 through 57). -/
def isDigit (c : Char) : Bool := 48 ≤ c.toNat && c.toNat ≤ 57

/-- Hexadecimal digit value for `\uXXXX` escapes, by code point. -/
def hexVal (c : Char) : Option Nat :=
  let n := c.toNat
  if 48 ≤ n && n ≤ 57 then some (n - 48)
  else if 97 ≤ n && n ≤ 102 then some (n - 87)
  else if 65 ≤ n && n ≤ 70 then some (n - 55)
  else none

/-- Lookup table for the single-character JSON escapes. -/
def escTable : List (Char × Char) :=
  [('"', '"'), ('\\', '\\'), ('/', '/'), ('b', '\x08'), ('f', '\x0c'),
    ('n', '\x0a'), ('r', '\x0d'), ('t', '\x09')]

/-- Single-character JSON escapes. -/
def escChar (c : Char) : Option Char :=
  (escTable.find? (fun pr => pr.1 == c)).map (fun pr => pr.2)

/-- Character produced by a `\uXXXX` escape.  Lone surrogate halves
become U+FFFD as in Go (surrogate-pair combination is not modelled; the
repository never produces such escapes). -/
def unicodeEscChar (code : Nat) : Char :=
  if code < 0xd800 || 0xe000 ≤ code then Char.ofNat code else '�'

/-- Parse a JSON string body after the opening quote, returning the
decoded characters and the input after the closing quote. -/
def parseStringBody : Str → Option (Str × Str)
  | [] => none
  | q :: rest =>
    if q == '"' then some ([], rest)
    else if q == '\\' then
      match rest with
      | 'u' :: h1 :: h2 :: h3 :: h4 :: more =>
        match hexVal h1, hexVal h2, hexVal h3, hexVal h4 with
        | some v1, some v2, some v3, some v4 =>
          (parseStringBody more).map (fun pr =>
            (unicodeEscChar (v1 * 4096 + v2 * 256 + v3 * 16 + v4) :: pr.1, pr.2))
        | _, _, _, _ => none
      | e :: more =>
        match escChar e, parseStringBody more with
        | some ch, some pr => some (ch :: pr.1, pr.2)
        | _, _ => none
      | [] => none
    else if q.toNat < 32 then none
    else (parseStringBody rest).map (fun pr => (q :: pr.1, pr.2))

/-- Append a mandatory digit run to the lexeme accumulator. -/
def expDigits (acc : Str) (s : Str) : Option (Str × Str) :=
  let ds := s.takeWhile isDigit
  if ds.isEmpty then none else some (acc ++ ds, s.dropWhile isDigit)

/-- Parse the optional exponent part of a JSON number. -/
def parseExpPart (acc : Str) (s : Str) : Option (Str × Str) :=
  match s with
  | [] => some (acc, [])
  | e :: r =>
    if e == 'e' || e == 'E' then
      match r with
      | '+' :: rr => expDigits (acc ++ [e, '+']) rr
      | '-' :: rr => expDigits (acc ++ [e, '-']) rr
      | _ => expDigits (acc ++ [e]) r
    else some (acc, e :: r)

/-- Parse the optional fraction and exponent parts of a JSON number. -/
def parseFracExp (acc : Str) (s : Str) : Option (Str × Str) :=
  match s with
  | '.' :: r =>
    match expDigits (acc ++ ['.']) r with
    | some (acc2, r2) => parseExpPart acc2 r2
    | none => none
  | _ => parseExpPart acc s

/-- Parse the unsigned part of a JSON number (`(0 | [1-9][0-9]*) frac?
exp?`), with `acc` holding an optional sign already consumed. -/
def parseNumMag (acc : Str) (s : Str) : Option (Str × Str) :=
  match s with
  | [] => none
  | c :: r =>
    if c == '0' then parseFracExp (acc ++ ['0']) r
    else if isDigit c then
      parseFracExp (acc ++ c :: r.takeWhile isDigit) (r.dropWhile isDigit)
    else none

/-- Parse a JSON number lexeme (`-? (0 | [1-9][0-9]*) frac? exp?`). -/
def parseNumber (s : Str) : Option (Str × Str) :=
  match s with
  | '-' :: r => parseNumMag ['-'] r
  | _ => parseNumMag [] s

mutual

/-- Parse one JSON value; the fuel bounds nesting depth and is
instantiated with the input length, which each nesting level strictly
consumes. -/
def parseValue : Nat → Str → Option (Json × Str)
  | 0, _ => none
  | fuel + 1, s =>
    match skipWs s with
    | [] => none
    | c :: r =>
      if c == '"' then (parseStringBody r).map (fun pr => (Json.jstr pr.1, pr.2))
      else if c == '[' then
        match skipWs r with
        | ']' :: r2 => some (Json.jarr [], r2)
        | _ => parseElems fuel r []
      else if c == '\x7b' then
        match skipWs r with
        | '\x7d' :: r2 => some (Json.jobj [], r2)
        | _ => parseMembers fuel r []
      else if c == 'n' then
        match r with
        | 'u' :: 'l' :: 'l' :: r2 => some (Json.null, r2)
        | _ => none
      else if c == 't' then
        match r with
        | 'r' :: 'u' :: 'e' :: r2 => some (Json.jbool true, r2)
        | _ => none
      else if c == 'f' then
        match r with
        | 'a' :: 'l' :: 's' :: 'e' :: r2 => some (Json.jbool false, r2)
        | _ => none
      else (parseNumber (c :: r)).map (fun pr => (Json.jnum pr.1, pr.2))

/-- Parse the elements of a non-empty JSON array after `[`. -/
def parseElems : Nat → Str → List Json → Option (Json × Str)
  | 0, _, _ => none
  | fuel + 1, s, acc =>
    match parseValue fuel s with
    | some (v, r) =>
      (match skipWs r with
        | d :: r2 =>
          if d == ',' then parseElems fuel r2 (acc ++ [v])
          else if d == ']' then some (Json.jarr (acc ++ [v]), r2)
          else none
        | [] => none)
    | none => none

/-- Parse the members of a non-empty JSON object after the opening
brace. -/
def parseMembers : Nat → Str → List (Str × Json) → Option (Json × Str)
  | 0, _, _ => none
  | fuel + 1, s, acc =>
    match skipWs s with
    | q :: r =>
      if q == '"' then
        match parseStringBody r with
        | some (key, r1) =>
          (match skipWs r1 with
            | colon :: r2 =>
              if colon == ':' then
                match parseValue fuel r2 with
                | some (v, r3) =>
                  (match skipWs r3 with
                    | d :: r4 =>
                      if d == ',' then parseMembers fuel r4 (acc ++ [(key, v)])
                      else if d == '\x7d' then
                        some (Json.jobj (acc ++ [(key, v)]), r4)
                      else none
                    | [] => none)
                | none => none
              else none
            | [] => none)
        | none => none
      else none
    | [] => none

end

/-- Parse a complete JSON document: one value with nothing but white
space after it, as required by `json.Unmarshal`. -/
def parseJsonTop (s : Str) : Option Json :=
  match parseValue (s.length + 1) s with
  | some (v, rest) => if skipWs rest = [] then some v else none
  | none => none

/-- The target struct of `json.Unmarshal` in `parseLLMResponse` and
`handleStreamResponse`: fields `action`, `tool`, `args`, `answer`. -/
structure RespStruct where
  action : Str
  tool : Str
  args : Option (List (Str × Json))
  answer : Str
  deriving Repr

/-- The zero value of the struct before decoding. -/
def emptyResp : RespStruct := ⟨[], [], none, []⟩

/-- Assign one decoded object member to the struct;  `none` models an
`UnmarshalTypeError`.  JSON `null` leaves a field untouched and unknown
keys are ignored, as in `encoding/json`.  Matching is modelled as exact:
the code and prompts only ever use the lower-case key spellings, so the
decoder's case-insensitive fallback is never exercised. -/
def applyField (r : RespStruct) (key : Str) (v : Json) : Option RespStruct :=
  if key = "action".toList then
    match v with
    | .jstr s => some { r with action := s }
    | .null => some r
    | _ => none
  else if key = "tool".toList then
    match v with
    | .jstr s => some { r with tool := s }
    | .null => some r
    | _ => none
  else if key = "args".toList then
    match v with
    | .jobj fs => some { r with args := some fs }
    | .null => some r
    | _ => none
  else if key = "answer".toList then
    match v with
    | .jstr s => some { r with answer := s }
    | .null => some r
    | _ => none
  else some r

/-- Fold the object members into the struct; later duplicates win. -/
def applyFields (r : RespStruct) : List (Str × Json) → Option RespStruct
  | [] => some r
  | (k, v) :: rest =>
    match applyField r k v with
    | none => none
    | some r' => applyFields r' rest

/-- Model of `json.Unmarshal([]byte(s), &resp)`: `none` is a decode
error, `some` the filled struct.  A top-level `null` succeeds and leaves
the zero struct; any non-object, non-null top level is an error. -/
def decodeResp (s : Str) : Option RespStruct :=
  match parseJsonTop s with
  | some (.jobj fields) => applyFields emptyResp fields
  | some .null => some emptyResp
  | _ => none

/-- The streaming marker `\x7b"action"` searched for by
`StreamWithContext` (stream.go line 174). -/
def actionFlag : Str := "\x7b\"action\"".toList

/-- The call-tool marker `\x7b"action":"call_tool"` searched for by
`parseLLMResponse` (part_013 line 26) and `handleStreamResponse`. -/
def callToolMarker : Str := "\x7b\"action\":\"call_tool\"".toList

/-- Message roles used by the agent (`openai.ChatMessageRole*`). -/
inductive Role where
  | system
  | user
  | assistant
  deriving Repr, DecidableEq

/-- One conversation turn (`openai.ChatCompletionMessage`). -/
structure ChatMessage where
  role : Role
  content : Str
  deriving Repr, DecidableEq

/-- A registered tool at its interface boundary (`mcp.Tool`): a name and
a `Call` function from the decoded `args` map to a result or an error. -/
structure RTool where
  name : Str
  call : Option (List (Str × Json)) → Except Str Str

/-- Model of `findTool` (part_013 lines 83-90): case-sensitive linear
first-match lookup over the registered tools. -/
def findTool (tools : List RTool) (name : Str) : Option RTool :=
  match tools with
  | [] => none
  | t :: rest => if t.name = name then some t else findTool rest name

/-- Errors a run can terminate with. -/
inductive RunError where
  | llmFailed
  | noChoices
  | toolNameRequired
  | toolNotFound (tool : Str)
  | toolCallFailed (tool : Str)
  | iterationExceeded
  deriving Repr, DecidableEq

/-- The decode phase of `parseLLMResponse` (part_013 lines 24-40) and of
`handleStreamResponse` (stream.go lines 289-315): locate the first
occurrence of the call-tool marker, truncate-and-clean from it, and
attempt to unmarshal.  `none` covers both an absent marker and a decode
failure, the two cases the source resolves fail-open. -/
def codecDecode (response : Str) : Option RespStruct :=
  match strIndex response callToolMarker with
  | none => none
  | some idx => decodeResp (thoroughlyCleanJSON (response.drop idx))

/-- Model of `parseLLMResponse` (part_013 lines 16-80).  Returns the
`(result, shouldContinue)` pair or the error, together with the updated
message log (the tool-result append of lines 62-67).  Memory saves do
not affect the agent state and are omitted. -/
def parseLLMResponse (tools : List RTool) (messages : List ChatMessage)
    (response : Str) : Except RunError (Str × Bool) × List ChatMessage :=
  match codecDecode response with
  | none => (.ok (response, false), messages)
  | some resp =>
    if resp.action = "final_answer".toList then (.ok (resp.answer, false), messages)
    else if resp.action = "call_tool".toList then
      if resp.tool = [] then (.error .toolNameRequired, messages)
      else
        match findTool tools resp.tool with
        | none => (.error (.toolNotFound resp.tool), messages)
        | some tool =>
          match tool.call resp.args with
          | .error _ => (.error (.toolCallFailed resp.tool), messages)
          | .ok toolResult =>
            let toolMessage :=
              "Tool ".toList ++ resp.tool ++ " returned: ".toList ++ toolResult
            (.ok ([], true), messages ++ [⟨.user, toolMessage⟩])
    else (.ok (response, false), messages)

/-- The model provider at its interface boundary: one `Chat` call maps
the message log to an error or the list of choices' message contents. -/
abbrev LLMFun := List ChatMessage → Except Unit (List Str)

/-- Outcome of a synchronous run: result or error, the final message
log, and how many times the provider was invoked. -/
structure RunResult where
  result : Except RunError Str
  messages : List ChatMessage
  llmCalls : Nat

/-- The iteration loop of `RunWithContext` (runner.go lines 47-87):
`fuel` is the number of remaining loop entries (`maxIter - iterations`),
`calls` counts provider invocations. -/
def runLoop (llm : LLMFun) (tools : List RTool) :
    List ChatMessage → Nat → Nat → RunResult
  | messages, 0, calls => ⟨.error .iterationExceeded, messages, calls⟩
  | messages, fuel + 1, calls =>
    match llm messages with
    | .error _ => ⟨.error .llmFailed, messages, calls + 1⟩
    | .ok [] => ⟨.error .noChoices, messages, calls + 1⟩
    | .ok (output :: _) =>
      let messages' := messages ++ [⟨.assistant, output⟩]
      match parseLLMResponse tools messages' output with
      | (.error e, msgs) => ⟨.error e, msgs, calls + 1⟩
      | (.ok (result, shouldContinue), msgs) =>
        if shouldContinue then runLoop llm tools msgs fuel (calls + 1)
        else ⟨.ok result, msgs, calls + 1⟩

/-- Model of `RunWithContext` (runner.go lines 25-88): append the user
message, then run the bounded loop.  `maxIter` is the Go `int` field set
by `WithMaxIterations` without validation; a non-positive value admits
zero loop entries (`Int.toNat` is zero on non-positive input, matching
`for iterations < a.maxIter`). -/
def RunWithContext (llm : LLMFun) (tools : List RTool) (maxIter : Int)
    (messages : List ChatMessage) (message : Str) : RunResult :=
  runLoop llm tools (messages ++ [⟨.user, message⟩]) maxIter.toNat 0

/-- Model of the `WithMaxIterations` option (stream.go options, lines
445-449): it stores the value unchecked. -/
def WithMaxIterations (maxIter : Int) (_current : Int) : Int := maxIter

/-- State of the incremental delivery loop of `StreamWithContext`
(stream.go lines 132-214): forwarded content chunks, the rolling
`buffer`, the `isAssistantContent` flag (initialised false and never set
anywhere in the loop), the `toolJSONStartFound` marker flag and the
accumulated `fullContent`. -/
structure StreamState where
  out : List Str
  buffer : Str
  isAssistantContent : Bool
  toolJSONStartFound : Bool
  fullContent : Str
  deriving Repr, DecidableEq

/-- The loop state at stream start (stream.go lines 132-136). -/
def initStreamState : StreamState := ⟨[], [], false, false, []⟩

/-- Processing of one received content delta (stream.go lines 154-207).
Empty deltas are skipped by the `Delta.Content != ""` guard.  The inner
rune-length check of lines 190-196 coincides with the outer byte-length
check at this model's character level and is kept as in the source. -/
def processDelta (debug : Bool) (st : StreamState) (content : Str) : StreamState :=
  if content = [] then st
  else
    let st1 := { st with fullContent := st.fullContent ++ content }
    if debug then { st1 with out := st1.out ++ [content] }
    else if st1.isAssistantContent then { st1 with out := st1.out ++ [content] }
    else
      let buffer := st1.buffer ++ content
      if st1.toolJSONStartFound then { st1 with buffer := buffer }
      else if buffer.length > actionFlag.length then
        match strIndex buffer actionFlag with
        | some idx =>
          { st1 with
            out := st1.out ++ (if 0 < idx then [buffer.take idx] else []),
            buffer := buffer.drop idx,
            toolJSONStartFound := true }
        | none =>
          if buffer.length > actionFlag.length then
            { st1 with
              out := st1.out ++ [buffer.take (buffer.length - actionFlag.length)],
              buffer := buffer.drop (buffer.length - actionFlag.length) }
          else { st1 with buffer := buffer }
      else { st1 with buffer := buffer }

/-- The delta loop: fold `processDelta` over the received deltas. -/
def runDeltas (debug : Bool) (st : StreamState) (chunks : List Str) : StreamState :=
  chunks.foldl (processDelta debug) st

/-- End-of-stream flush (stream.go lines 210-214): a non-empty buffer
with no marker found is forwarded verbatim. -/
def endOfStreamFlush (st : StreamState) : List Str :=
  if st.buffer ≠ [] ∧ st.toolJSONStartFound = false then st.out ++ [st.buffer]
  else st.out

/-- Chunks observable on the output channel. -/
inductive SChunk where
  | content (s : Str)
  | reasoning (s : Str)
  | done
  | errorChunk
  deriving Repr, DecidableEq

/-- How a streaming run ends: a normal return, or a runtime panic. -/
inductive StreamEndKind where
  | finished
  | panicked
  deriving Repr, DecidableEq

/-- The per-iteration behavior of `StreamWithContext` when the provider
does not implement `llms.ChatStreamer` (stream.go lines 93-125).  On a
final answer the code sends only `{Done: true}` — the `result`-emitting
line 120 is reachable only with `shouldContinue` true, where
`parseLLMResponse` always returns an empty result.  The fallback block
is not followed by `continue`, so on `shouldContinue` control falls
through to `streamer.ChatStream` on the nil interface value of line 93,
which panics at run time; `.panicked` models that. -/
def streamLoopNonStreaming (llm : LLMFun) (tools : List RTool) :
    List ChatMessage → Nat → List SChunk × StreamEndKind
  | _, 0 => ([.errorChunk], .finished)
  | messages, _fuel + 1 =>
    match llm messages with
    | .error _ => ([.errorChunk], .finished)
    | .ok [] => ([.errorChunk], .finished)
    | .ok (output :: _) =>
      let messages' := messages ++ [⟨.assistant, output⟩]
      match parseLLMResponse tools messages' output with
      | (.error _, _) => ([.errorChunk], .finished)
      | (.ok (result, shouldContinue), _) =>
        if shouldContinue = false then ([.done], .finished)
        else ((if result ≠ [] then [.content result] else []), .panicked)

/-- Model of `StreamWithContext` (stream.go lines 58-257) specialised to
a provider without streaming support: append the user message, then run
the loop. -/
def StreamWithContextNonStreaming (llm : LLMFun) (tools : List RTool)
    (maxIter : Int) (messages : List ChatMessage) (message : Str) :
    List SChunk × StreamEndKind :=
  streamLoopNonStreaming llm tools (messages ++ [⟨.user, message⟩]) maxIter.toNat

/-- The memory store at its interface boundary: `LoadMessages` for one
conversation id. -/
structure MemModel where
  load : Str → Except Unit (List ChatMessage)

/-- The leading-run collection loop of `SetConversationID` (part_014
lines 34-41): append while the role is `system`, break at the first
other role. -/
def collectLeadingSystem : List ChatMessage → List ChatMessage
  | [] => []
  | m :: rest => if m.role = .system then m :: collectLeadingSystem rest else []

/-- Model of `SetConversationID` (part_014 lines 32-59): keep the
leading system messages, set the new id, reload history for it; a load
failure or missing memory leaves only the system messages.  Returns the
new conversation id and message log. -/
def SetConversationID (mem : Option MemModel) (messages : List ChatMessage)
    (conversationID : Str) : Str × List ChatMessage :=
  let systemMessages := collectLeadingSystem messages
  match mem with
  | some m =>
    match m.load conversationID with
    | .ok history => (conversationID, systemMessages ++ history)
    | .error _ => (conversationID, systemMessages)
  | none => (conversationID, systemMessages)

/-- Model of `CreateReactAgent` from `src/agents/agent.go` (lines
40-70): non-empty loaded history is appended first, the system prompt
after it (the source comments "system prompt is always last").  The
prompt text built by `buildSystemPrompt` is passed as a parameter since
only its role matters to the modelled claims. -/
def CreateReactAgentHistFirst (mem : Option MemModel) (conversationID : Str)
    (systemPrompt : Str) : List ChatMessage :=
  let msgs : List ChatMessage := []
  let msgs :=
    match mem with
    | some m =>
      if conversationID ≠ [] then
        match m.load conversationID with
        | .ok history => if history ≠ [] then msgs ++ history else msgs
        | .error _ => msgs
      else msgs
    | none => msgs
  msgs ++ [⟨.system, systemPrompt⟩]

/-- Model of `CreateReactAgent` from part_011 (lines 51-89): the system
prompt (present when tools or skills are configured) comes first, then
the history loaded from memory; the load is skipped for the Milvus
backend (`milvusSkip`). -/
def CreateReactAgentSysFirst (mem : Option MemModel) (milvusSkip : Bool)
    (conversationID : Str) (hasToolsOrSkills : Bool) (systemPrompt : Str) :
    List ChatMessage :=
  let msgs : List ChatMessage := []
  let msgs := if hasToolsOrSkills then msgs ++ [⟨.system, systemPrompt⟩] else msgs
  match mem with
  | some m =>
    if conversationID ≠ [] then
      if milvusSkip then msgs
      else
        match m.load conversationID with
        | .ok history => if history ≠ [] then msgs ++ history else msgs
        | .error _ => msgs
    else msgs
  | none => msgs

/-- Model of `WithPrompt` (prompt.go lines 70-76): append a system
message at the end of the log. -/
def WithPrompt (messages : List ChatMessage) (prompt : Str) : List ChatMessage :=
  messages ++ [⟨.system, prompt⟩]

/-- The system-prefix property of spec §3: every system message lies in
the leading contiguous system run of the log. -/
def sysPrefixInv (messages : List ChatMessage) : Prop :=
  ∀ m ∈ messages.dropWhile (fun m => m.role == Role.system), m.role ≠ .system

/-- `pat` occurs in `s` at position `p`. -/
def occursAt (pat s : Str) (p : Nat) : Prop := pat <+: s.drop p

/-- Joint invariant of the non-debug delta loop: content conservation,
the dead `isAssistantContent` flag, buffer bounds while the marker is
unseen, the marker heading the buffer once found, and the guarantee that
no character at or after a marker occurrence has been forwarded. -/
def StreamInv (st : StreamState) : Prop :=
  st.out.flatten ++ st.buffer = st.fullContent ∧
  st.isAssistantContent = false ∧
  (st.toolJSONStartFound = false →
    st.buffer.length ≤ actionFlag.length ∧
    (st.out = [] ∨ st.buffer.length = actionFlag.length)) ∧
  (st.toolJSONStartFound = true → actionFlag <+: st.buffer) ∧
  (∀ p, occursAt actionFlag st.fullContent p → st.out.flatten.length ≤ p)

/-- Concrete call-tool response used by the runner witnesses. -/
def sampleCallTool : Str :=
  "\x7b\"action\":\"call_tool\",\"tool\":\"x\",\"args\":\x7b\x7d\x7d".toList

instance (messages : List ChatMessage) : Decidable (sysPrefixInv messages) := by
  unfold sysPrefixInv
  infer_instance

/-! ### Lemmas about the string-search models -/

theorem listStartsWith_iff (pat s : Str) : listStartsWith pat s = true ↔ pat <+: s := by
  induction pat generalizing s with
  | nil => simp [listStartsWith]
  | cons p ps ih =>
    cases s with
    | nil => simp [listStartsWith]
    | cons c cs =>
      rw [List.cons_prefix_cons]
      simp [listStartsWith, ih]

theorem strIndex_none_iff (s pat : Str) :
    strIndex s pat = none ↔ ∀ q, ¬ occursAt pat s q := by
  unfold occursAt
  induction s with
  | nil =>
    rw [strIndex]
    split
    · next h =>
      rw [listStartsWith_iff] at h
      constructor
      · intro hc; simp at hc
      · intro hall; exact absurd h (by simpa using hall 0)
    · next h =>
      rw [listStartsWith_iff] at h
      constructor
      · intro _ q; simpa using h
      · intro _; rfl
  | cons c t ih =>
    rw [strIndex]
    split
    · next h =>
      rw [listStartsWith_iff] at h
      constructor
      · intro hc; exact absurd hc (by simp)
      · intro hall; exact absurd h (by simpa using hall 0)
    · next h =>
      rw [listStartsWith_iff] at h
      rw [Option.map_eq_none', ih]
      constructor
      · intro h2 q
        cases q with
        | zero => simpa using h
        | succ q => simpa using h2 q
      · intro h2 q
        simpa using h2 (q + 1)

theorem strIndex_some_occ {s pat : Str} {i : Nat} (h : strIndex s pat = some i) :
    occursAt pat s i := by
  unfold occursAt
  induction s generalizing i with
  | nil =>
    rw [strIndex] at h
    split at h
    · next hs =>
      rw [listStartsWith_iff] at hs
      cases h
      simpa using hs
    · cases h
  | cons c t ih =>
    rw [strIndex] at h
    split at h
    · next hs =>
      rw [listStartsWith_iff] at hs
      cases h
      simpa using hs
    · next hs =>
      rw [Option.map_eq_some'] at h
      obtain ⟨j, hj, rfl⟩ := h
      simpa using ih hj

theorem strIndex_some_min {s pat : Str} {i : Nat} (h : strIndex s pat = some i) :
    ∀ j, j < i → ¬ occursAt pat s j := by
  unfold occursAt
  induction s generalizing i with
  | nil =>
    rw [strIndex] at h
    split at h
    · cases h; omega
    · cases h
  | cons c t ih =>
    rw [strIndex] at h
    split at h
    · cases h; omega
    · next hs =>
      rw [listStartsWith_iff] at hs
      rw [Option.map_eq_some'] at h
      obtain ⟨m, hm, rfl⟩ := h
      intro j hj
      cases j with
      | zero => simpa using hs
      | succ j => simpa using ih hm j (by omega)

theorem prefix_of_append_le {l xs ys : Str} (h : l <+: xs ++ ys)
    (hl : l.length ≤ xs.length) : l <+: xs := by
  rw [List.prefix_iff_eq_take] at h ⊢
  rw [h, List.take_append_eq_append_take]
  have : l.length - xs.length = 0 := by omega
  simp [this]

theorem occursAt_append_ext {pat s : Str} (t : Str) {p : Nat}
    (h : occursAt pat s p) : occursAt pat (s ++ t) p := by
  unfold occursAt at h ⊢
  rw [List.drop_append_eq_append_drop]
  exact h.trans (List.prefix_append _ _)

theorem occursAt_append_restrict {pat s t : Str} {p : Nat}
    (h : occursAt pat (s ++ t) p) (hp : p + pat.length ≤ s.length) :
    occursAt pat s p := by
  unfold occursAt at h ⊢
  rw [List.drop_append_eq_append_drop] at h
  refine prefix_of_append_le h ?_
  simp only [List.length_drop]
  omega

theorem occursAt_length {pat s : Str} {p : Nat} (hpat : pat ≠ [])
    (h : occursAt pat s p) : p + pat.length ≤ s.length := by
  unfold occursAt at h
  have h1 := h.length_le
  simp only [List.length_drop] at h1
  rcases le_or_lt p s.length with hp | hp
  · omega
  · exfalso
    have : s.drop p = [] := List.drop_eq_nil_of_le (by omega)
    rw [this, List.prefix_nil] at h
    exact hpat h

theorem occursAt_drop_left {pat xs ys : Str} {q : Nat}
    (h : occursAt pat ys q) : occursAt pat (xs ++ ys) (xs.length + q) := by
  unfold occursAt at h ⊢
  rwa [List.drop_append]

theorem occursAt_of_append_ge {pat xs ys : Str} {p : Nat}
    (h : occursAt pat (xs ++ ys) p) (hp : xs.length ≤ p) :
    occursAt pat ys (p - xs.length) := by
  unfold occursAt at h ⊢
  rw [List.drop_append_eq_append_drop] at h
  rwa [List.drop_eq_nil_of_le hp, List.nil_append] at h

/-! ### Invariants of the incremental delivery loop -/

theorem streamInv_init : StreamInv initStreamState := by
  refine ⟨rfl, rfl, fun _ => by simp [initStreamState, actionFlag], fun h => by simp [initStreamState] at h, ?_⟩
  intro p hp
  unfold occursAt at hp
  simp [initStreamState] at hp
  simp [initStreamState, hp]

theorem processDelta_eq_found (st : StreamState) (c : Str) (hc : c ≠ [])
    (ha : st.isAssistantContent = false) (hf : st.toolJSONStartFound = true) :
    processDelta false st c =
      { st with buffer := st.buffer ++ c, fullContent := st.fullContent ++ c } := by
  simp [processDelta, hc, ha, hf]

theorem processDelta_eq_plain (st : StreamState) (c : Str) (hc : c ≠ [])
    (ha : st.isAssistantContent = false) (hf : st.toolJSONStartFound = false)
    (hlen : ¬ (st.buffer ++ c).length > actionFlag.length) :
    processDelta false st c =
      { st with buffer := st.buffer ++ c, fullContent := st.fullContent ++ c } := by
  have hlen' : ¬ actionFlag.length < st.buffer.length + c.length := by simpa using hlen
  simp [processDelta, hc, ha, hf, hlen']

theorem processDelta_eq_slide (st : StreamState) (c : Str) (hc : c ≠ [])
    (ha : st.isAssistantContent = false) (hf : st.toolJSONStartFound = false)
    (hlen : (st.buffer ++ c).length > actionFlag.length)
    (hnone : strIndex (st.buffer ++ c) actionFlag = none) :
    processDelta false st c =
      { st with
        out := st.out ++
          [(st.buffer ++ c).take ((st.buffer ++ c).length - actionFlag.length)],
        buffer := (st.buffer ++ c).drop ((st.buffer ++ c).length - actionFlag.length),
        fullContent := st.fullContent ++ c } := by
  have hlen' : actionFlag.length < st.buffer.length + c.length := by simpa using hlen
  simp [processDelta, hc, ha, hf, hlen', hnone]

theorem processDelta_eq_detect (st : StreamState) (c : Str) {idx : Nat} (hc : c ≠ [])
    (ha : st.isAssistantContent = false) (hf : st.toolJSONStartFound = false)
    (hlen : (st.buffer ++ c).length > actionFlag.length)
    (hidx : strIndex (st.buffer ++ c) actionFlag = some idx) :
    processDelta false st c =
      { st with
        out := st.out ++ (if 0 < idx then [(st.buffer ++ c).take idx] else []),
        buffer := (st.buffer ++ c).drop idx,
        toolJSONStartFound := true,
        fullContent := st.fullContent ++ c } := by
  have hlen' : actionFlag.length < st.buffer.length + c.length := by simpa using hlen
  simp [processDelta, hc, ha, hf, hlen', hidx]

theorem streamInv_step (st : StreamState) (c : Str) (h : StreamInv st) :
    StreamInv (processDelta false st c) := by
  obtain ⟨hcons, hassist, hnf, hfpre, hocc⟩ := h
  have hflag9 : actionFlag.length = 9 := rfl
  have hflagne : actionFlag ≠ [] := by decide
  by_cases hc : c = []
  · have heq : processDelta false st c = st := by simp [processDelta, hc]
    rw [heq]
    exact ⟨hcons, hassist, hnf, hfpre, hocc⟩
  by_cases hfound : st.toolJSONStartFound = true
  · -- marker already found: the delta is only buffered
    rw [processDelta_eq_found st c hc hassist hfound]
    have hbuf9 : 9 ≤ st.buffer.length := by
      have := (hfpre hfound).length_le
      omega
    have hfull : st.fullContent.length = st.out.flatten.length + st.buffer.length := by
      rw [← hcons]; simp
    refine ⟨?_, hassist, ?_, ?_, ?_⟩
    · show st.out.flatten ++ (st.buffer ++ c) = st.fullContent ++ c
      rw [← List.append_assoc, hcons]
    · intro habs
      rw [habs] at hfound
      simp at hfound
    · intro _
      exact (hfpre hfound).trans (List.prefix_append _ _)
    · intro p hp
      show st.out.flatten.length ≤ p
      by_contra hlt
      push_neg at hlt
      have hres : occursAt actionFlag st.fullContent p :=
        occursAt_append_restrict hp (by rw [hflag9]; omega)
      exact absurd (hocc p hres) (by omega)
  -- marker not yet found
  have hfound' : st.toolJSONStartFound = false := by
    cases hb : st.toolJSONStartFound
    · rfl
    · exact absurd hb hfound
  have hb'eq : st.fullContent ++ c = st.out.flatten ++ (st.buffer ++ c) := by
    rw [← hcons, List.append_assoc]
  have hfull : st.fullContent.length = st.out.flatten.length + st.buffer.length := by
    rw [← hcons]; simp
  have hge : ∀ p, occursAt actionFlag (st.fullContent ++ c) p →
      st.out.flatten.length ≤ p := by
    intro p hp
    rcases (hnf hfound').2 with hout | hbuf9
    · simp [hout]
    · by_contra hlt
      push_neg at hlt
      have hres : occursAt actionFlag st.fullContent p :=
        occursAt_append_restrict hp (by rw [hflag9]; omega)
      exact absurd (hocc p hres) (by omega)
  have hoccb : ∀ p, occursAt actionFlag (st.fullContent ++ c) p →
      occursAt actionFlag (st.buffer ++ c) (p - st.out.flatten.length) := by
    intro p hp
    have h1 := hge p hp
    rw [hb'eq] at hp
    exact occursAt_of_append_ge hp h1
  have hcne : 0 < c.length := List.length_pos.mpr hc
  by_cases hlen : (st.buffer ++ c).length > actionFlag.length
  · rcases hidx : strIndex (st.buffer ++ c) actionFlag with _ | idx
    · -- no occurrence in the window: release all but the flag-sized tail
      rw [processDelta_eq_slide st c hc hassist hfound' hlen hidx]
      have hnone := (strIndex_none_iff _ _).mp hidx
      have hn : (st.buffer ++ c).length = st.buffer.length + c.length := by simp
      refine ⟨?_, hassist, ?_, ?_, ?_⟩
      · simp only [List.flatten_append, List.flatten_cons, List.flatten_nil,
          List.append_nil, List.append_assoc, List.take_append_drop]
        rw [← List.append_assoc, hcons]
      · intro _
        constructor
        · simp only [List.length_drop]
          omega
        · right
          simp only [List.length_drop]
          omega
      · intro habs
        simp [hfound'] at habs
      · intro p hp
        exact absurd (hoccb p hp) (hnone _)
    · -- the marker was found in the window
      rw [processDelta_eq_detect st c hc hassist hfound' hlen hidx]
      have hoccI := strIndex_some_occ hidx
      have hminI := strIndex_some_min hidx
      have hidxlen : idx + actionFlag.length ≤ (st.buffer ++ c).length :=
        occursAt_length hflagne hoccI
      have hn : (st.buffer ++ c).length = st.buffer.length + c.length := by simp
      refine ⟨?_, hassist, ?_, ?_, ?_⟩
      · by_cases hpos : 0 < idx
        · simp only [if_pos hpos, List.flatten_append, List.flatten_cons,
            List.flatten_nil, List.append_nil, List.append_assoc,
            List.take_append_drop]
          rw [← List.append_assoc, hcons]
        · have h0 : idx = 0 := by omega
          subst h0
          simp only [if_neg hpos, List.append_nil, List.drop_zero]
          rw [← List.append_assoc, hcons]
      · intro habs
        simp at habs
      · intro _
        exact hoccI
      · intro p hp
        have h1 := hge p hp
        have h2 := hoccb p hp
        have h3 : ¬ p - st.out.flatten.length < idx := fun hq => hminI _ hq h2
        by_cases hpos : 0 < idx
        · simp only [if_pos hpos, List.flatten_append, List.flatten_cons,
            List.flatten_nil, List.append_nil, List.length_append,
            List.length_take]
          have hmin : min idx (st.buffer.length + c.length) = idx :=
            min_eq_left (by omega)
          rw [hmin]
          omega
        · simp only [if_neg hpos, List.append_nil]
          omega
  · -- window not longer than the marker: the delta is only buffered
    rw [processDelta_eq_plain st c hc hassist hfound' hlen]
    have hout : st.out = [] := by
      rcases (hnf hfound').2 with hout | hbuf9
      · exact hout
      · exfalso
        have hsum : (st.buffer ++ c).length = st.buffer.length + c.length := by simp
        omega
    refine ⟨?_, hassist, ?_, ?_, ?_⟩
    · show st.out.flatten ++ (st.buffer ++ c) = st.fullContent ++ c
      rw [← List.append_assoc, hcons]
    · intro _
      constructor
      · show (st.buffer ++ c).length ≤ actionFlag.length
        omega
      · exact Or.inl hout
    · intro habs
      simp [hfound'] at habs
    · intro p hp
      exact hge p hp

theorem runDeltas_cons (debug : Bool) (st : StreamState) (c : Str) (cs : List Str) :
    runDeltas debug st (c :: cs) = runDeltas debug (processDelta debug st c) cs := rfl

theorem streamInv_runDeltas (st : StreamState) (chunks : List Str)
    (h : StreamInv st) : StreamInv (runDeltas false st chunks) := by
  induction chunks generalizing st with
  | nil => simpa [runDeltas] using h
  | cons c cs ih =>
    rw [runDeltas_cons]
    exact ih _ (streamInv_step st c h)

theorem processDelta_fullContent (debug : Bool) (st : StreamState) (c : Str) :
    (processDelta debug st c).fullContent = st.fullContent ++ c := by
  rw [processDelta]
  split
  · next h => simp [h]
  · dsimp only
    repeat' split
    all_goals rfl

theorem runDeltas_fullContent (debug : Bool) (st : StreamState) (chunks : List Str) :
    (runDeltas debug st chunks).fullContent = st.fullContent ++ chunks.flatten := by
  induction chunks generalizing st with
  | nil => simp [runDeltas]
  | cons c cs ih =>
    rw [runDeltas_cons, ih, processDelta_fullContent]
    simp

theorem processDelta_found_true (debug : Bool) (st : StreamState) (c : Str)
    (h : st.toolJSONStartFound = true) :
    (processDelta debug st c).toolJSONStartFound = true := by
  rw [processDelta]
  dsimp only
  repeat' split
  all_goals (first | rfl | exact h)

theorem processDelta_detects (st : StreamState) (c : Str)
    (ha : st.isAssistantContent = false) (hf : st.toolJSONStartFound = false)
    (hc : c ≠ [])
    (hlen : (st.buffer ++ c).length > actionFlag.length)
    (hocc : ∃ q, occursAt actionFlag (st.buffer ++ c) q) :
    (processDelta false st c).toolJSONStartFound = true := by
  rcases hidx : strIndex (st.buffer ++ c) actionFlag with _ | idx
  · obtain ⟨q, hq⟩ := hocc
    exact absurd hq ((strIndex_none_iff _ _).mp hidx q)
  · rw [processDelta_eq_detect st c hc ha hf hlen hidx]

/-- C1: streaming conservation.  For every finite delta sequence
consumed in non-debug mode, the concatenation of all content chunks
forwarded during the stream (including the end-of-stream flush of an
unmarked buffer) plus the content withheld from the detected marker
onward equals `fullContent`, the concatenation of all received deltas:
no characters are duplicated or dropped across the marker boundary. -/
theorem stream_conservation (chunks : List Str) :
    (endOfStreamFlush (runDeltas false initStreamState chunks)).flatten ++
        (if (runDeltas false initStreamState chunks).toolJSONStartFound = true
          then (runDeltas false initStreamState chunks).buffer else []) =
      (runDeltas false initStreamState chunks).fullContent ∧
    (runDeltas false initStreamState chunks).fullContent = chunks.flatten := by
  obtain ⟨hcons, -, -, -, -⟩ :=
    streamInv_runDeltas initStreamState chunks streamInv_init
  constructor
  · set st := runDeltas false initStreamState chunks with hst
    by_cases hfound : st.toolJSONStartFound = true
    · rw [if_pos hfound]
      have hflush : endOfStreamFlush st = st.out := by
        simp [endOfStreamFlush, hfound]
      rw [hflush]
      exact hcons
    · have hfound' : st.toolJSONStartFound = false := by
        cases hb : st.toolJSONStartFound
        · rfl
        · exact absurd hb hfound
      rw [if_neg hfound, List.append_nil]
      by_cases hbuf : st.buffer = []
      · have hflush : endOfStreamFlush st = st.out := by
          simp [endOfStreamFlush, hbuf]
        rw [hflush]
        simpa [hbuf] using hcons
      · have hflush : endOfStreamFlush st = st.out ++ [st.buffer] := by
          simp [endOfStreamFlush, hbuf, hfound']
        rw [hflush]
        simpa using hcons
  · simpa [initStreamState] using
      runDeltas_fullContent false initStreamState chunks

/-- C2 counterexample: when the two chunks carry nothing but the bare
marker (empty narration, nothing after it), the buffered window never
exceeds the marker length, so the marker is never detected and the whole
marker is flushed to the caller as narration at end of stream. -/
theorem marker_split_counterexample :
    (runDeltas false initStreamState
        ["\x7b\"act".toList, "ion\"".toList]).toolJSONStartFound = false ∧
      endOfStreamFlush (runDeltas false initStreamState
        ["\x7b\"act".toList, "ion\"".toList]) = [actionFlag] := by
  constructor
  · decide
  · decide

/-- C2 (amended): marker-splitting robustness.  For every narration text
and every byte offset at which the marker is split across two
consecutive chunks, provided the streamed content extends beyond the
bare marker (non-empty narration or a non-empty remainder after it),
the non-debug controller detects the marker, and no character at or
after the first marker occurrence is forwarded to the caller. -/
theorem marker_split_robustness (narr rest : Str) (k : Nat)
    (hk0 : 0 < k) (hk : k < actionFlag.length)
    (hne : narr ≠ [] ∨ rest ≠ []) :
    (runDeltas false initStreamState
        [narr ++ actionFlag.take k, actionFlag.drop k ++ rest]).toolJSONStartFound
        = true ∧
    ∀ p, occursAt actionFlag
        (runDeltas false initStreamState
          [narr ++ actionFlag.take k, actionFlag.drop k ++ rest]).fullContent p →
      (endOfStreamFlush (runDeltas false initStreamState
          [narr ++ actionFlag.take k, actionFlag.drop k ++ rest])).flatten.length ≤ p := by
  have hflag9 : actionFlag.length = 9 := rfl
  set c1 := narr ++ actionFlag.take k with hc1def
  set c2 := actionFlag.drop k ++ rest with hc2def
  set st1 := processDelta false initStreamState c1 with hst1def
  have hst : runDeltas false initStreamState [c1, c2] = processDelta false st1 c2 := rfl
  have htake : (actionFlag.take k).length = k := by
    simp [List.length_take]
    omega
  have hdroplen : (actionFlag.drop k).length = 9 - k := by
    simp [List.length_drop, hflag9]
  have hc1len : c1.length = narr.length + k := by
    simp [hc1def, htake]
  have hc2len : c2.length = (9 - k) + rest.length := by
    simp [hc2def, hdroplen]
  have hc1ne : c1 ≠ [] := by
    intro hnil
    have := congrArg List.length hnil
    simp [hc1len] at this
    omega
  have hc2ne : c2 ≠ [] := by
    intro hnil
    have := congrArg List.length hnil
    simp [hc2len] at this
    omega
  obtain ⟨hcons1, hassist1, hnf1, -, -⟩ :=
    streamInv_step initStreamState c1 streamInv_init
  rw [← hst1def] at hcons1 hassist1 hnf1
  have hfull1 : st1.fullContent = c1 := by
    simpa [initStreamState] using processDelta_fullContent false initStreamState c1
  have hfound : (processDelta false st1 c2).toolJSONStartFound = true := by
    by_cases hf1 : st1.toolJSONStartFound = true
    · exact processDelta_found_true false st1 c2 hf1
    · have hf1' : st1.toolJSONStartFound = false := by
        cases hb : st1.toolJSONStartFound
        · rfl
        · exact absurd hb hf1
      have hcons1' : st1.out.flatten ++ st1.buffer = c1 := by
        rw [hcons1, hfull1]
      have hbk : k ≤ st1.buffer.length := by
        rcases (hnf1 hf1').2 with hout | hb9
        · have : st1.buffer = c1 := by simpa [hout] using hcons1'
          rw [this]
          omega
        · rw [hb9, hflag9]
          omega
      have hdle : st1.out.flatten.length ≤ narr.length := by
        have hlen' := congrArg List.length hcons1'
        rw [List.length_append] at hlen'
        omega
      have hb1 : st1.buffer = c1.drop st1.out.flatten.length := by
        rw [← hcons1', List.drop_left]
      have hb1' : st1.buffer =
          narr.drop st1.out.flatten.length ++ actionFlag.take k := by
        rw [hb1, hc1def, List.drop_append_eq_append_drop]
        have : st1.out.flatten.length - narr.length = 0 := by omega
        rw [this, List.drop_zero]
      have hwin : st1.buffer ++ c2 =
          narr.drop st1.out.flatten.length ++ (actionFlag ++ rest) := by
        rw [hb1', hc2def, List.append_assoc,
          ← List.append_assoc (List.take k actionFlag) (List.drop k actionFlag) rest,
          List.take_append_drop]
      have hoccw : occursAt actionFlag (st1.buffer ++ c2)
          (narr.drop st1.out.flatten.length).length := by
        unfold occursAt
        rw [hwin, List.drop_left]
        exact List.prefix_append _ _
      by_cases hlen2 : (st1.buffer ++ c2).length > actionFlag.length
      · exact processDelta_detects st1 c2 hassist1 hf1' hc2ne hlen2 ⟨_, hoccw⟩
      · exfalso
        have hsum : (st1.buffer ++ c2).length = st1.buffer.length + c2.length := by
          simp
        rcases (hnf1 hf1').2 with hout | hb9
        · have hbc1 : st1.buffer = c1 := by simpa [hout] using hcons1'
          have h1 : st1.buffer.length = narr.length + k := by rw [hbc1, hc1len]
          have hnarr0 : narr.length = 0 ∧ rest.length = 0 := by
            constructor <;> omega
          rcases hne with hn | hr
          · exact hn (List.length_eq_zero.mp hnarr0.1)
          · exact hr (List.length_eq_zero.mp hnarr0.2)
        · rw [hb9, hflag9] at hsum
          omega
  constructor
  · rw [hst]
    exact hfound
  · intro p hp
    rw [hst] at hp ⊢
    have hflush : endOfStreamFlush (processDelta false st1 c2) =
        (processDelta false st1 c2).out := by
      simp [endOfStreamFlush, hfound]
    rw [hflush]
    obtain ⟨-, -, -, -, hocc⟩ :=
      streamInv_runDeltas initStreamState [c1, c2] streamInv_init
    rw [hst] at hocc
    exact hocc p hp

/-- C5: fail-open decoding.  Whenever the call-tool marker is absent
from the response, or it is present but the cleaned substring fails to
unmarshal, `parseLLMResponse` returns the full original response
verbatim as a final answer, reports no error, and leaves the message
log unchanged. -/
theorem fail_open_decoding (tools : List RTool) (messages : List ChatMessage)
    (response : Str) (h : codecDecode response = none) :
    parseLLMResponse tools messages response = (.ok (response, false), messages) := by
  unfold parseLLMResponse
  rw [h]

/-- C5 witness: a plain response without the marker is passed through
verbatim with no error. -/
theorem fail_open_decoding_witness :
    codecDecode "hello".toList = none ∧
      parseLLMResponse [] [] "hello".toList = (.ok ("hello".toList, false), []) :=
  ⟨rfl, fail_open_decoding [] [] "hello".toList rfl⟩

theorem collectLeadingSystem_eq_takeWhile (messages : List ChatMessage) :
    collectLeadingSystem messages =
      messages.takeWhile (fun m => m.role == Role.system) := by
  induction messages with
  | nil => rfl
  | cons m rest ih =>
    by_cases h : m.role = Role.system
    · simp [collectLeadingSystem, List.takeWhile_cons, h, ih]
    · simp [collectLeadingSystem, List.takeWhile_cons, h, ih]

/-- C7: conversation switch.  `SetConversationID` sets the new id and
leaves exactly the leading contiguous run of system messages followed by
the history loaded for the new id; a failed load or missing memory
leaves the system prefix alone, and the switch itself always
succeeds (it is a total function). -/
theorem conversation_switch (mem : Option MemModel) (messages : List ChatMessage)
    (conversationID : Str) :
    (SetConversationID mem messages conversationID).1 = conversationID ∧
    (SetConversationID mem messages conversationID).2 =
      messages.takeWhile (fun m => m.role == Role.system) ++
        (match mem with
          | some m =>
            match m.load conversationID with
            | .ok history => history
            | .error _ => []
          | none => []) := by
  unfold SetConversationID
  rcases mem with _ | m
  · simp [collectLeadingSystem_eq_takeWhile]
  · rcases hload : m.load conversationID with e | history <;>
      simp [hload, collectLeadingSystem_eq_takeWhile]

/-- C9: the non-streaming fallback of `StreamWithContext` never delivers
a final answer as a content chunk (it emits only the `Done` chunk), and
on a successful tool-calling response it falls through to
`streamer.ChatStream` on the nil interface and panics instead of
continuing the iteration. -/
theorem fallback_evaluation :
    StreamWithContextNonStreaming (fun _ => .ok ["hello".toList]) [] 10 []
        "hi".toList = ([SChunk.done], .finished) ∧
      StreamWithContextNonStreaming
          (fun _ => .ok
            ["\x7b\"action\":\"call_tool\",\"tool\":\"x\",\"args\":\x7b\x7d\x7d".toList])
          [⟨"x".toList, fun _ => .ok "res".toList⟩] 10 [] "hi".toList =
        ([], .panicked) := by
  constructor
  · rfl
  · rfl

/-- C10: a non-positive iteration bound stored unchecked by
`WithMaxIterations` makes the run append the user message, invoke the
provider zero times, and fail immediately with the iteration-exceeded
error. -/
theorem nonpositive_max_iterations (llm : LLMFun) (tools : List RTool)
    (maxIter stored : Int) (messages : List ChatMessage) (message : Str)
    (h : maxIter ≤ 0) :
    RunWithContext llm tools (WithMaxIterations maxIter stored) messages message =
      ⟨.error .iterationExceeded, messages ++ [⟨.user, message⟩], 0⟩ := by
  unfold RunWithContext WithMaxIterations
  have h0 : maxIter.toNat = 0 := by omega
  rw [h0]
  rfl

/-- C10 witness: `maxIterations = 0` yields the iteration-exceeded error
with the user message appended and zero provider calls. -/
theorem nonpositive_max_iterations_witness :
    (0 : Int) ≤ 0 ∧
      RunWithContext (fun _ => .ok []) [] (WithMaxIterations 0 10) [] "hi".toList =
        ⟨.error .iterationExceeded, [⟨.user, "hi".toList⟩], 0⟩ :=
  ⟨le_refl 0,
    nonpositive_max_iterations (fun _ => .ok []) [] 0 10 [] "hi".toList (le_refl 0)⟩

theorem runLoop_calls_le (llm : LLMFun) (tools : List RTool) :
    ∀ (fuel calls : Nat) (messages : List ChatMessage),
      (runLoop llm tools messages fuel calls).llmCalls ≤ calls + fuel := by
  intro fuel
  induction fuel with
  | zero =>
    intro calls messages
    simp [runLoop]
  | succ fuel ih =>
    intro calls messages
    rcases hllm : llm messages with e | choices
    · simp [runLoop, hllm]
    · rcases choices with _ | ⟨output, restChoices⟩
      · simp [runLoop, hllm]
      · rcases hparse : parseLLMResponse tools
            (messages ++ [⟨Role.assistant, output⟩]) output with
          ⟨e | ⟨result, shouldContinue⟩, msgs2⟩
        · simp [runLoop, hllm, hparse]
          try omega
        · cases shouldContinue
          · simp [runLoop, hllm, hparse]
            try omega
          · simp only [runLoop, hllm, hparse]
            have := ih (calls + 1) msgs2
            try simp only [if_pos rfl]
            try simp only [if_true]
            omega

/-- C3: iteration bound.  Every run invokes the model provider at most
`maxIterations` times; and a run with `maxIterations = 1` whose single
model response decodes to a valid `call_tool` action that resolves and
dispatches successfully terminates with the iteration-exceeded error
after exactly one model call. -/
theorem iteration_bound (llm : LLMFun) (tools : List RTool) (maxIter : Int)
    (messages : List ChatMessage) (message : Str) :
    (RunWithContext llm tools maxIter messages message).llmCalls ≤ maxIter.toNat ∧
    (∀ (output result : Str) (r : RespStruct) (tool : RTool),
      maxIter = 1 →
      llm (messages ++ [⟨.user, message⟩]) = .ok [output] →
      codecDecode output = some r →
      r.action = "call_tool".toList →
      r.tool ≠ [] →
      findTool tools r.tool = some tool →
      tool.call r.args = .ok result →
      (RunWithContext llm tools maxIter messages message).result =
          .error .iterationExceeded ∧
        (RunWithContext llm tools maxIter messages message).llmCalls = 1) := by
  constructor
  · have h := runLoop_calls_le llm tools maxIter.toNat 0
      (messages ++ [⟨.user, message⟩])
    simpa [RunWithContext] using h
  · intro output result r tool h1 hllm hdec hact htool hfind hcall
    subst h1
    have hne : r.action ≠ "final_answer".toList := by
      rw [hact]; decide
    have hparse : parseLLMResponse tools
        (messages ++ [⟨.user, message⟩, ⟨Role.assistant, output⟩]) output =
        (.ok (([] : Str), true),
          messages ++ [⟨.user, message⟩, ⟨Role.assistant, output⟩] ++
            [⟨.user, "Tool ".toList ++ r.tool ++ " returned: ".toList ++ result⟩]) := by
      unfold parseLLMResponse
      rw [hdec]
      simp [hne, hact, htool, hfind, hcall]
    have h1nat : (1 : Int).toNat = 1 := rfl
    constructor
    · show (runLoop llm tools (messages ++ [⟨.user, message⟩]) (1 : Int).toNat 0).result = _
      rw [h1nat]
      simp [runLoop, hllm, hparse]
    · show (runLoop llm tools (messages ++ [⟨.user, message⟩]) (1 : Int).toNat 0).llmCalls = 1
      rw [h1nat]
      simp [runLoop, hllm, hparse]

/-- C6: tool-failure atomicity.  If the decoded action of the model
response is `call_tool` and the tool name is empty, the tool is not
registered, or the tool call fails, the run terminates with the matching
tool error, no tool-result message is appended, and the user and
assistant messages appended by the run remain in the log unchanged. -/
theorem tool_failure_atomicity (llm : LLMFun) (tools : List RTool) (maxIter : Int)
    (messages : List ChatMessage) (message output : Str) (r : RespStruct)
    (hiter : 1 ≤ maxIter)
    (hllm : llm (messages ++ [⟨.user, message⟩]) = .ok [output])
    (hdec : codecDecode output = some r)
    (hact : r.action = "call_tool".toList)
    (hfail : r.tool = [] ∨ findTool tools r.tool = none ∨
      ∃ tool e, findTool tools r.tool = some tool ∧ tool.call r.args = .error e) :
    (∃ err, (RunWithContext llm tools maxIter messages message).result = .error err ∧
        (err = .toolNameRequired ∨ err = .toolNotFound r.tool ∨
          err = .toolCallFailed r.tool)) ∧
    (RunWithContext llm tools maxIter messages message).messages =
      messages ++ [⟨.user, message⟩, ⟨Role.assistant, output⟩] := by
  have hne : r.action ≠ "final_answer".toList := by
    rw [hact]; decide
  obtain ⟨n, hn⟩ : ∃ n, maxIter.toNat = n + 1 :=
    ⟨maxIter.toNat - 1, by omega⟩
  have hmsgs : ∀ e : RunError,
      parseLLMResponse tools
          (messages ++ [⟨.user, message⟩, ⟨Role.assistant, output⟩]) output =
        (.error e, messages ++ [⟨.user, message⟩, ⟨Role.assistant, output⟩]) →
      (∃ err, (RunWithContext llm tools maxIter messages message).result = .error err ∧
          err = e) ∧
      (RunWithContext llm tools maxIter messages message).messages =
        messages ++ [⟨.user, message⟩, ⟨Role.assistant, output⟩] := by
    intro e hparse
    unfold RunWithContext
    rw [hn]
    constructor
    · exact ⟨e, by simp [runLoop, hllm, hparse], rfl⟩
    · simp [runLoop, hllm, hparse]
  by_cases htool : r.tool = []
  · have hparse : parseLLMResponse tools
        (messages ++ [⟨.user, message⟩, ⟨Role.assistant, output⟩]) output =
        (.error .toolNameRequired,
          messages ++ [⟨.user, message⟩, ⟨Role.assistant, output⟩]) := by
      unfold parseLLMResponse
      rw [hdec]
      simp [hne, hact, htool]
    obtain ⟨⟨err, hres, herr⟩, hmsg⟩ := hmsgs _ hparse
    exact ⟨⟨err, hres, Or.inl herr⟩, hmsg⟩
  · rcases hfail with hname | hmiss | ⟨tool, err0, hfind, hcall⟩
    · exact absurd hname htool
    · have hparse : parseLLMResponse tools
          (messages ++ [⟨.user, message⟩, ⟨Role.assistant, output⟩]) output =
          (.error (.toolNotFound r.tool),
            messages ++ [⟨.user, message⟩, ⟨Role.assistant, output⟩]) := by
        unfold parseLLMResponse
        rw [hdec]
        simp [hne, hact, htool, hmiss]
      obtain ⟨⟨err, hres, herr⟩, hmsg⟩ := hmsgs _ hparse
      exact ⟨⟨err, hres, Or.inr (Or.inl herr)⟩, hmsg⟩
    · have hparse : parseLLMResponse tools
          (messages ++ [⟨.user, message⟩, ⟨Role.assistant, output⟩]) output =
          (.error (.toolCallFailed r.tool),
            messages ++ [⟨.user, message⟩, ⟨Role.assistant, output⟩]) := by
        unfold parseLLMResponse
        rw [hdec]
        simp [hne, hact, htool, hfind, hcall]
      obtain ⟨⟨err, hres, herr⟩, hmsg⟩ := hmsgs _ hparse
      exact ⟨⟨err, hres, Or.inr (Or.inr herr)⟩, hmsg⟩

/-- C3 witness: a one-iteration run with a successfully dispatching tool
call ends in the iteration-exceeded error after one provider call. -/
theorem iteration_bound_witness :
    codecDecode sampleCallTool =
        some ⟨"call_tool".toList, "x".toList, some [], []⟩ ∧
      (RunWithContext (fun _ => .ok [sampleCallTool])
          [⟨"x".toList, fun _ => .ok "res".toList⟩] 1 [] "hi".toList).result =
        .error .iterationExceeded ∧
      (RunWithContext (fun _ => .ok [sampleCallTool])
          [⟨"x".toList, fun _ => .ok "res".toList⟩] 1 [] "hi".toList).llmCalls = 1 := by
  refine ⟨rfl, ?_⟩
  exact (iteration_bound (fun _ => .ok [sampleCallTool])
      [⟨"x".toList, fun _ => .ok "res".toList⟩] 1 [] "hi".toList).2
    sampleCallTool "res".toList ⟨"call_tool".toList, "x".toList, some [], []⟩
    ⟨"x".toList, fun _ => .ok "res".toList⟩ rfl rfl rfl rfl (by decide) rfl rfl

/-- C6 witness: a call-tool response naming an unregistered tool leaves
exactly the user and assistant messages in the log. -/
theorem tool_failure_atomicity_witness :
    (1 : Int) ≤ 10 ∧
      (RunWithContext (fun _ => .ok [sampleCallTool]) [] 10 [] "hi".toList).messages =
        [] ++ [⟨.user, "hi".toList⟩, ⟨Role.assistant, sampleCallTool⟩] :=
  ⟨by norm_num,
    (tool_failure_atomicity (fun _ => .ok [sampleCallTool]) [] 10 [] "hi".toList
      sampleCallTool ⟨"call_tool".toList, "x".toList, some [], []⟩
      (by norm_num) rfl rfl rfl (Or.inr (Or.inl rfl))).2⟩

theorem dropWhile_append_cons {α : Type} (p : α → Bool) (xs ys : List α) {y : α}
    (hy : p y = false) :
    (xs ++ y :: ys).dropWhile p = xs.dropWhile p ++ y :: ys := by
  induction xs with
  | nil => simp [List.dropWhile_cons, hy]
  | cons x xs ih =>
    by_cases hx : p x = true
    · simp [List.dropWhile_cons, hx, ih]
    · have hx' : p x = false := by
        cases h : p x
        · rfl
        · exact absurd h hx
      simp [List.dropWhile_cons, hx']

theorem sysPrefixInv_of_all_nonsystem {msgs : List ChatMessage}
    (h : ∀ m ∈ msgs, m.role ≠ Role.system) : sysPrefixInv msgs := by
  intro m hm
  exact h m ((List.dropWhile_sublist _).subset hm)

theorem sysPrefixInv_sys_cons (sysPrompt : Str) {h : List ChatMessage}
    (hh : ∀ m ∈ h, m.role ≠ Role.system) :
    sysPrefixInv (⟨Role.system, sysPrompt⟩ :: h) := by
  intro x hx
  rw [List.dropWhile_cons] at hx
  simp only [beq_self_eq_true, if_true] at hx
  exact hh x ((List.dropWhile_sublist _).subset hx)

theorem sysPrefixInv_append_nonsystem (msgs : List ChatMessage) (m : ChatMessage)
    (hinv : sysPrefixInv msgs) (hm : m.role ≠ Role.system) :
    sysPrefixInv (msgs ++ [m]) := by
  intro x hx
  have hmp : (m.role == Role.system) = false := by simpa using hm
  rw [dropWhile_append_cons _ msgs [] hmp] at hx
  rcases List.mem_append.mp hx with h1 | h2
  · exact hinv x h1
  · have hxm : x = m := by simpa using h2
    rw [hxm]
    exact hm

/-- C8 counterexample: the `agents/agent.go` constructor appends the
system prompt after a non-empty loaded history, so the system message is
not part of a contiguous prefix of the log it builds. -/
theorem system_prefix_counterexample :
    ¬ sysPrefixInv (CreateReactAgentHistFirst
        (some ⟨fun _ => .ok [⟨Role.user, "hi".toList⟩]⟩) "c".toList
        "sys".toList) := by
  decide

/-- C8 (amended): the system-prefix invariant holds for logs built by
the part_011 `CreateReactAgent` whenever the loaded history contains no
system messages, and it is preserved by every append of a non-system
message (the user, assistant, and tool-result appends performed by
runs).  The `agents/agent.go` constructor with a non-empty loaded
history, and `WithPrompt` applied after non-system messages, can break
it, per the counterexample. -/
theorem system_prefix_amended (mem : Option MemModel) (milvusSkip : Bool)
    (cid : Str) (hasToolsOrSkills : Bool) (sysPrompt : Str)
    (hhist : ∀ M h, mem = some M → M.load cid = .ok h →
      ∀ m ∈ h, m.role ≠ Role.system) :
    sysPrefixInv
        (CreateReactAgentSysFirst mem milvusSkip cid hasToolsOrSkills sysPrompt) ∧
      ∀ (msgs : List ChatMessage) (m : ChatMessage),
        sysPrefixInv msgs → m.role ≠ Role.system → sysPrefixInv (msgs ++ [m]) := by
  have hfull : ∀ (b : Bool) (h : List ChatMessage),
      (∀ m ∈ h, m.role ≠ Role.system) →
      sysPrefixInv ((if b then
        ([] : List ChatMessage) ++ [⟨Role.system, sysPrompt⟩] else []) ++ h) := by
    intro b h hh
    cases b
    · simpa using sysPrefixInv_of_all_nonsystem hh
    · simpa using sysPrefixInv_sys_cons sysPrompt hh
  have hbase : ∀ (b : Bool),
      sysPrefixInv (if b then
        ([] : List ChatMessage) ++ [⟨Role.system, sysPrompt⟩] else []) := by
    intro b
    simpa using hfull b [] (by simp)
  constructor
  · unfold CreateReactAgentSysFirst
    rcases mem with _ | M
    · exact hbase hasToolsOrSkills
    · dsimp only
      by_cases hcid : cid ≠ []
      · rw [if_pos hcid]
        cases hmil : milvusSkip
        · rw [if_neg (by simp)]
          rcases hload : M.load cid with e | h
          · exact hbase hasToolsOrSkills
          · dsimp only
            by_cases hne : h ≠ []
            · rw [if_pos hne]
              exact hfull hasToolsOrSkills h (hhist M h rfl hload)
            · rw [if_neg hne]
              exact hbase hasToolsOrSkills
        · rw [if_pos rfl]
          exact hbase hasToolsOrSkills
      · rw [if_neg hcid]
        exact hbase hasToolsOrSkills
  · exact sysPrefixInv_append_nonsystem

/-- C8 witness: a freshly constructed part_011 agent satisfies the
invariant, and appending a non-system message preserves it on a sample
log. -/
theorem system_prefix_amended_witness :
    sysPrefixInv (CreateReactAgentSysFirst none false "c".toList true
        "sys".toList) ∧
      sysPrefixInv ([⟨Role.system, "sys".toList⟩, ⟨Role.user, "hi".toList⟩] ++
        [⟨Role.assistant, "a".toList⟩]) :=
  ⟨(system_prefix_amended none false "c".toList true "sys".toList
      (by intro M h hM; simp at hM)).1,
    (system_prefix_amended none false "c".toList true "sys".toList
      (by intro M h hM; simp at hM)).2
      [⟨Role.system, "sys".toList⟩, ⟨Role.user, "hi".toList⟩]
      ⟨Role.assistant, "a".toList⟩ (by decide) (by decide)⟩

theorem lastIndexOf_eq_none {c : Char} {s : Str} (h : c ∉ s) :
    lastIndexOf c s = none := by
  induction s with
  | nil => rfl
  | cons x xs ih =>
    have h1 : c ∉ xs := fun hx => h (List.mem_cons_of_mem _ hx)
    have h2 : (x == c) = false := by
      have hne : ¬ x = c := by
        intro he
        exact h (by rw [he]; exact List.mem_cons_self _ _)
      simpa using hne
    simp [lastIndexOf, ih h1, h2]

theorem lastIndexOf_append_of_not_mem {c : Char} {ys : Str} (h : c ∉ ys) :
    ∀ xs : Str, lastIndexOf c (xs ++ ys) = lastIndexOf c xs := by
  intro xs
  induction xs with
  | nil => simp [lastIndexOf_eq_none h, lastIndexOf]
  | cons x xs ih => simp [lastIndexOf, ih]

theorem lastIndexOf_append_self (c : Char) (xs : Str) :
    lastIndexOf c (xs ++ [c]) = some xs.length := by
  induction xs with
  | nil => simp [lastIndexOf]
  | cons x xs ih => simp [lastIndexOf, ih]

theorem lastIndexOf_lt_length {c : Char} {s : Str} {i : Nat}
    (h : lastIndexOf c s = some i) : i < s.length := by
  induction s generalizing i with
  | nil => simp [lastIndexOf] at h
  | cons x xs ih =>
    rw [lastIndexOf] at h
    rcases hlast : lastIndexOf c xs with _ | j
    · simp only [hlast] at h
      by_cases hxc : (x == c) = true
      · rw [if_pos hxc] at h
        simp only [Option.some.injEq] at h
        subst h
        simp
      · rw [if_neg hxc] at h
        cases h
    · simp only [hlast, Option.some.injEq] at h
      subst h
      have hj := ih hlast
      simp only [List.length_cons]
      omega

theorem lastIndexZ_le (c : Char) (s : Str) :
    lastIndexZ c s ≤ (s.length : Int) - 1 := by
  unfold lastIndexZ
  split
  · omega
  · next i hi =>
    have := lastIndexOf_lt_length hi
    omega

theorem trimLeftSpace_cons {c : Char} (hc : isGoSpace c = false) (s : Str) :
    trimLeftSpace (c :: s) = c :: s := by
  simp [trimLeftSpace, List.dropWhile_cons, hc]

theorem trimRightSpace_append_last (j' narr : Str) {c : Char}
    (hc : isGoSpace c = false) :
    trimRightSpace ((j' ++ [c]) ++ narr) = (j' ++ [c]) ++ trimRightSpace narr := by
  unfold trimRightSpace
  have h1 : ((j' ++ [c]) ++ narr).reverse = narr.reverse ++ c :: j'.reverse := by
    simp
  rw [h1, dropWhile_append_cons _ _ _ hc]
  simp

theorem mem_trimRightSpace {c : Char} {s : Str} (h : c ∈ trimRightSpace s) :
    c ∈ s := by
  unfold trimRightSpace at h
  rw [List.mem_reverse] at h
  have h2 := (List.dropWhile_sublist _).subset h
  rwa [List.mem_reverse] at h2

theorem trimPrefixBOM_brace (s : Str) : trimPrefixBOM ('\x7b' :: s) = '\x7b' :: s := rfl

theorem strIndex_eq_zero_of {s pat : Str} (h : pat <+: s) :
    strIndex s pat = some 0 := by
  cases s with
  | nil => rw [strIndex, if_pos ((listStartsWith_iff _ _).mpr h)]
  | cons c t => rw [strIndex, if_pos ((listStartsWith_iff _ _).mpr h)]

theorem thoroughlyCleanJSON_of_append (j narr t2 j' : Str)
    (hht : j = '\x7b' :: t2)
    (hj' : j = j' ++ ['\x7d'])
    (hnarr : ∀ c ∈ narr, c ≠ '\x7d' ∧ c ≠ ']') :
    thoroughlyCleanJSON (j ++ narr) = j := by
  have h1 : trimPrefixBOM (j ++ narr) = j ++ narr := by
    rw [hht, List.cons_append]
    exact trimPrefixBOM_brace _
  have h2 : trimLeftSpace (j ++ narr) = j ++ narr := by
    rw [hht, List.cons_append]
    exact trimLeftSpace_cons (by decide) _
  have h3 : trimRightSpace (j ++ narr) = j ++ trimRightSpace narr := by
    rw [hj']
    exact trimRightSpace_append_last j' narr (by decide)
  have hts : trimSpace (j ++ narr) = j ++ trimRightSpace narr := by
    unfold trimSpace
    rw [h2, h3]
  have hnarr' : ∀ c ∈ trimRightSpace narr, c ≠ '\x7d' ∧ c ≠ ']' :=
    fun c hc => hnarr c (mem_trimRightSpace hc)
  have hnb : '\x7d' ∉ trimRightSpace narr := fun hmem => (hnarr' _ hmem).1 rfl
  have hnk : ']' ∉ trimRightSpace narr := fun hmem => (hnarr' _ hmem).2 rfl
  have hjlen : j.length = j'.length + 1 := by rw [hj']; simp
  have hbz : lastIndexZ '\x7d' (j ++ trimRightSpace narr) = (j'.length : Int) := by
    unfold lastIndexZ
    rw [lastIndexOf_append_of_not_mem hnb, hj', lastIndexOf_append_self]
  have hkzle : lastIndexZ ']' (j ++ trimRightSpace narr) ≤ (j'.length : Int) := by
    have he : lastIndexZ ']' (j ++ trimRightSpace narr) = lastIndexZ ']' j := by
      unfold lastIndexZ
      rw [lastIndexOf_append_of_not_mem hnk]
    have h5 := lastIndexZ_le ']' j
    omega
  have hmax : max (lastIndexZ '\x7d' (j ++ trimRightSpace narr))
      (lastIndexZ ']' (j ++ trimRightSpace narr)) = (j'.length : Int) := by
    rw [hbz]
    exact max_eq_left hkzle
  have hcond : ((j'.length : Int) != -1) = true := by
    simp only [bne_iff_ne, ne_eq]
    omega
  have htn : ((j'.length : Int) + 1).toNat = j.length := by omega
  have htake : (j ++ trimRightSpace narr).take j.length = j := List.take_left _ _
  have h4 : trimSpace j = j := by
    unfold trimSpace
    have hl : trimLeftSpace j = j := by
      rw [hht]
      exact trimLeftSpace_cons (by decide) _
    rw [hl, hj']
    have h5 := trimRightSpace_append_last j' [] (c := '\x7d') (by decide)
    simpa using h5
  unfold thoroughlyCleanJSON
  dsimp only
  rw [h1, hts, hmax, if_pos hcond, htn, htake, h4]

/-- C4 counterexample: trailing narration containing a closing brace
defeats the last-brace truncation rule: the repaired candidate fails to
decode, and the parser falls back to treating the entire response as a
final answer instead of recovering the call_tool object. -/
theorem trailing_narration_counterexample :
    codecDecode
        "\x7b\"action\":\"call_tool\",\"tool\":\"x\",\"args\":\x7b\x7d\x7d oh\x7d".toList
        = none ∧
      parseLLMResponse [] []
          "\x7b\"action\":\"call_tool\",\"tool\":\"x\",\"args\":\x7b\x7d\x7d oh\x7d".toList =
        (.ok ("\x7b\"action\":\"call_tool\",\"tool\":\"x\",\"args\":\x7b\x7d\x7d oh\x7d".toList,
          false), []) := by
  constructor
  · rfl
  · rfl

/-- C4 (amended): trailing-narration repair.  For every response that
starts with the literal call-tool marker, whose JSON object part ends
with a closing brace and decodes successfully, followed by trailing
narration containing no closing brace or bracket, the Action Codec
recovers exactly the decoded object via the last-brace truncation rule
(after BOM stripping and trimming).  In particular the spec's example
input decodes tool `x` with empty args, per the witness. -/
theorem trailing_narration_repair (j narr : Str) (r : RespStruct)
    (hj : callToolMarker <+: j)
    (hjend : ∃ j', j = j' ++ ['\x7d'])
    (hnarr : ∀ c ∈ narr, c ≠ '\x7d' ∧ c ≠ ']')
    (hdec : decodeResp j = some r) :
    codecDecode (j ++ narr) = some r := by
  obtain ⟨j', hj'⟩ := hjend
  obtain ⟨t2, ht2⟩ : ∃ t2, j = '\x7b' :: t2 := by
    obtain ⟨u, hu⟩ := hj
    refine ⟨"\"action\":\"call_tool\"".toList ++ u, ?_⟩
    rw [← hu]
    rfl
  have hpre : callToolMarker <+: j ++ narr := hj.trans (List.prefix_append _ _)
  have hidx : strIndex (j ++ narr) callToolMarker = some 0 :=
    strIndex_eq_zero_of hpre
  unfold codecDecode
  rw [hidx]
  dsimp only
  rw [List.drop_zero, thoroughlyCleanJSON_of_append j narr t2 j' ht2 hj' hnarr]
  exact hdec

/-- C4 witness: the spec's example — a canonical call-tool object
followed by plain trailing text — decodes tool `x` with empty args. -/
theorem trailing_narration_repair_witness :
    decodeResp "\x7b\"action\":\"call_tool\",\"tool\":\"x\",\"args\":\x7b\x7d\x7d".toList =
        some ⟨"call_tool".toList, "x".toList, some [], []⟩ ∧
      codecDecode
          ("\x7b\"action\":\"call_tool\",\"tool\":\"x\",\"args\":\x7b\x7d\x7d".toList ++
            " some trailing text".toList) =
        some ⟨"call_tool".toList, "x".toList, some [], []⟩ := by
  refine ⟨rfl, ?_⟩
  exact trailing_narration_repair
    "\x7b\"action\":\"call_tool\",\"tool\":\"x\",\"args\":\x7b\x7d\x7d".toList
    " some trailing text".toList
    ⟨"call_tool".toList, "x".toList, some [], []⟩
    (by decide)
    ⟨"\x7b\"action\":\"call_tool\",\"tool\":\"x\",\"args\":\x7b\x7d".toList, by decide⟩
    (by decide)
    rfl

/-- C2 witness: one narration character with the marker split after its
fifth character is detected by the controller. -/
theorem marker_split_robustness_witness :
    (0 : Nat) < 5 ∧ 5 < actionFlag.length ∧ (['a'] : Str) ≠ [] ∧
      (runDeltas false initStreamState
        [['a'] ++ actionFlag.take 5,
          actionFlag.drop 5 ++ []]).toolJSONStartFound = true :=
  ⟨by decide, by decide, by decide,
    (marker_split_robustness ['a'] [] 5 (by decide) (by decide)
      (Or.inl (by decide))).1⟩

end LangchainGo
